import Mathlib

/-!
Shallow embedding of the OctaBuild build engine (src/main.cc) and proofs
about its resolver, executor, pattern substitution and barrier machinery.

Strings are modelled as `List Char`; the filesystem, the script-host
tokenizer and the interpreter's run_int are explicit parameters.  All
definitions are translated directly from the source; where an external
surface (interpreter, threads) is abstracted, the doc comment says how.
-/

set_option maxHeartbeats 1000000

namespace OctaBuild

/-- Opaque compiled-script bytecode handle (cs_bcode_ref in src/main.cc).
The engine never inspects the bytecode, it only passes it back to the
interpreter, so a recipe body is modelled as an abstract id. -/
abbrev Recipe := Nat

/-- A rule definition, struct ObState::Rule in src/main.cc: one target
name, ordered dep strings, an optional recipe body (a null cs_bcode_ref is
`none`), and the action flag. -/
structure Rule where
  target : List Char
  deps : List (List Char)
  func : Option Recipe
  action : Bool
deriving DecidableEq, Inhabited

/-- A resolver output entry, struct ObState::SubRule: a matched rule
together with the substring the % wildcard captured; the capture is empty
for exact matches (the C++ leaves `sub` default-constructed there). -/
structure SubRule where
  sub : List Char
  rule : Rule
deriving DecidableEq, Inhabited

/-- The filesystem surface the engine consumes: `readable` is whether
opening the file for reading succeeds (ob_check_file), and `ts` is the
get_ts lambda of ob_check_ts: the mtime for a regular file and 0 for a
missing or non-regular one. -/
structure FS where
  readable : List Char → Bool
  ts : List Char → Nat

/-- ob_check_ts from src/main.cc: request a rebuild when the target is not
an existing regular file, or some dep is a regular file whose mtime is
strictly newer than the target's. -/
def ob_check_ts (fs : FS) (tname : List Char) (deps : List (List Char)) : Bool :=
  let tts := fs.ts tname
  if tts = 0 then true
  else deps.any fun dep =>
    let sts := fs.ts dep
    decide (sts ≠ 0) && decide (tts < sts)

/-- ob_check_file from src/main.cc: the file opens for reading. -/
def ob_check_file (fs : FS) (fname : List Char) : Bool :=
  fs.readable fname

/-- ob_check_exec from src/main.cc: run the recipe when the target or some
dep is unreadable, or ob_check_ts asks for a rebuild. -/
def ob_check_exec (fs : FS) (tname : List Char) (deps : List (List Char)) : Bool :=
  if !(ob_check_file fs tname) then true
  else if deps.any (fun dep => !(ob_check_file fs dep)) then true
  else ob_check_ts fs tname deps

/-- Split a string at its first %, as the source does with ostd::find and
slice_until: `none` when no % occurs, otherwise the parts before and after
the first %. -/
def findPct : List Char → Option (List Char × List Char)
  | [] => none
  | c :: rest =>
    if c = '%' then some ([], rest)
    else
      match findPct rest with
      | none => none
      | some (pre, post) => some (c :: pre, post)

/-- ob_compare_subst from src/main.cc: match a concrete name `expanded`
against the pattern `toexpand` and return the substring standing for the
first %.  Both the prefix and the suffix comparisons demand the remaining
name strictly longer than the fixed part (`size() <=` failures), so a
successful capture is never empty; failure is `none` (the C++ nullptr
range). -/
def ob_compare_subst (expanded toexpand : List Char) : Option (List Char) :=
  match findPct toexpand with
  | none => none
  | some (fp, rep) =>
    if expanded.length ≤ fp.length then none
    else if expanded.take fp.length ≠ fp then none
    else
      let e := expanded.drop fp.length
      if rep.isEmpty then some e
      else if e.length ≤ rep.length then none
      else if e.drop (e.length - rep.length) ≠ rep then none
      else some (e.take (e.length - rep.length))

/-- The % splice the source performs on dep tokens in ObState::exec_list
(and, read the other way, the substitution inverse of ob_compare_subst):
the first % of `pat` is replaced by `sub`; a token without % is used
verbatim. -/
def ob_subst (pat sub : List Char) : List Char :=
  match findPct pat with
  | none => pat
  | some (pre, post) => pre ++ sub ++ post

/-- An engine error as produced by ObState::error: the integer returned to
the caller and the message written to stderr (the progname prefix and the
trailing newline are left out). -/
structure ObError where
  retcode : Int
  msg : List Char
deriving DecidableEq, Inhabited

/-- The message of `error(1, "redefinition of rule '%s'", target)`. -/
def redef_msg (target : List Char) : List Char :=
  ("redefinition of rule \x27").toList ++ target ++ ("\x27").toList

/-- The loop state of ObState::find_rules: the result list built so far,
the index of the currently chosen recipe-bearing entry in it (the C++
`frule` pointer into the rlist vector), and the `exact` flag. -/
structure FindSt where
  rlist : List SubRule
  frule : Option Nat
  exact : Bool
deriving DecidableEq, Inhabited

/-- One iteration of the scan loop in ObState::find_rules.  The vector
operations `rlist.emplace_back(); ... *frule = rlist.back();
rlist.pop_back();` are rendered with append, set and dropLast; reading
`frule->sub` is reading the slot the index points at (the push at the back
leaves that slot unchanged, so it is read off the pre-push list). -/
def find_step (target : List Char) (st : FindSt) (rule : Rule) :
    Except ObError FindSt :=
  if target = rule.target then
    let rlist := st.rlist ++ [{ sub := [], rule := rule : SubRule }]
    if rule.func.isSome then
      if st.frule.isSome && st.exact then
        .error ⟨1, redef_msg target⟩
      else
        match st.frule with
        | none => .ok ⟨rlist, some (rlist.length - 1), true⟩
        | some p =>
          .ok ⟨((rlist.set p { sub := [], rule := rule }).dropLast), some p, true⟩
    else .ok ⟨rlist, st.frule, st.exact⟩
  else if st.exact || rule.func.isNone then .ok st
  else
    match ob_compare_subst target rule.target with
    | none => .ok st
    | some sub =>
      if sub.isEmpty then .ok st
      else
        let sr : SubRule := { sub := sub, rule := rule }
        let rlist := st.rlist ++ [sr]
        match st.frule with
        | none => .ok ⟨rlist, some (rlist.length - 1), st.exact⟩
        | some p =>
          if sub.length = (st.rlist.getD p default).sub.length then
            .error ⟨1, redef_msg target⟩
          else if sub.length < (st.rlist.getD p default).sub.length then
            .ok ⟨((rlist.set p sr).dropLast), some p, st.exact⟩
          else .ok ⟨rlist, st.frule, st.exact⟩

/-- The scan loop of ObState::find_rules over the declared rules. -/
def find_rules_go (target : List Char) :
    FindSt → List Rule → Except ObError (List SubRule)
  | st, [] => .ok st.rlist
  | st, r :: rs =>
    match find_step target st r with
    | .error e => .error e
    | .ok st2 => find_rules_go target st2 rs

/-- ObState::find_rules on a cold cache entry (the early return on a
non-empty cached rlist is the memoisation short-circuit; rules are
immutable after setup, so recomputing is equivalent and the cache is not
modelled): scan the rule sequence once in declaration order and build the
SubRule list, failing with the redefinition error exactly where the C++
does. -/
def find_rules (target : List Char) (rules : List Rule) :
    Except ObError (List SubRule) :=
  find_rules_go target ⟨[], none, false⟩ rules

/-- The recipe-selection loop at the top of ObState::exec_func: the first
SubRule in the list whose rule carries a recipe. -/
def chosen_recipe (rlist : List SubRule) : Option SubRule :=
  rlist.find? fun sr => sr.rule.func.isSome

/-- Observable side effects of the executor: recipe invocations (calls
into the interpreter's run_int) and error messages written by
ObState::error. -/
inductive Event where
  | run (func : Option Recipe) : Event
  | err (msg : List Char) : Event
deriving DecidableEq

/-- The engine state the executor reads: the declared rules, the
filesystem, and the interpreter callback run_int giving each bytecode
body's integer result (run_int of a null body included, as exec_action can
apply it to a recipe-less rule).  Recipes are modelled by their integer
result only; the shell tasks a recipe may enqueue are treated by the
barrier model below, and the resolver cache is pure memoisation (see
find_rules). -/
structure Ob where
  rules : List Rule
  fs : FS
  runInt : Option Recipe → Int

/-- ObState::exec_action: hand the rule's body to run_int. -/
def exec_action (ob : Ob) (rule : Rule) : Int × List Event :=
  (ob.runInt rule.func, [Event.run rule.func])

/-- The `(rlist.size() == 1) && rlist[0].rule->action` test of
ObState::exec_rule: the single matched rule when it is an action. -/
def single_action : List SubRule → Option Rule
  | [sr] => if sr.rule.action then some sr.rule else none
  | _ => none

/-- The message of the two "no rule to run target" errors in
ObState::exec_rule, with and without the `from` context. -/
def no_rule_msg (target frm : List Char) : List Char :=
  if frm.isEmpty then
    ("no rule to run target \x27").toList ++ target ++ ("\x27").toList
  else
    ("no rule to run target \x27").toList ++ target
      ++ ("\x27 (needed by \x27").toList ++ frm ++ ("\x27)").toList

/-- The inner dep loop of ObState::exec_list for one SubRule,
parameterised by the recursive exec_rule one fuel level down: splice the
captured substitution into each dep token that contains %, push the
concrete dep onto subdeps, recurse on it, and stop at the first non-zero
result (the partially filled subdeps is returned, as the C++ grows it by
reference). -/
def exec_deps_go (execR : List Char → List Char → Int × List Event)
    (sub : List Char) (deps : List (List Char)) (subdeps : List (List Char))
    (tname : List Char) : Int × List (List Char) × List Event :=
  match deps with
  | [] => (0, subdeps, [])
  | dep :: rest =>
    let atgt := ob_subst dep sub
    let subdeps2 := subdeps ++ [atgt]
    let r := execR atgt tname
    if r.1 ≠ 0 then (r.1, subdeps2, r.2)
    else
      let t := exec_deps_go execR sub rest subdeps2 tname
      (t.1, t.2.1, r.2 ++ t.2.2)

/-- The outer loop of ObState::exec_list over the SubRule list. -/
def exec_list_go (execR : List Char → List Char → Int × List Event)
    (rlist : List SubRule) (subdeps : List (List Char)) (tname : List Char) :
    Int × List (List Char) × List Event :=
  match rlist with
  | [] => (0, subdeps, [])
  | sr :: rest =>
    let t := exec_deps_go execR sr.sub sr.rule.deps subdeps tname
    if t.1 ≠ 0 then t
    else
      let u := exec_list_go execR rest t.2.1 tname
      (u.1, u.2.1, t.2.2 ++ u.2.2)

/-- ObState::exec_func, parameterised by the recursive exec_rule: walk the
deps through exec_list (the C++ wraps this in wait_result; in this
sequential model the barrier holds no tasks and contributes result 0 — the
task side is the barrier model below), select the first recipe-bearing
SubRule, and run its recipe when nothing failed and the rule is an action
or ob_check_exec asks for a rebuild.  The target/source/sources alias
bindings are interpreter calls assumed to succeed (their failure paths
return 1 and are AliasBindFailed internal errors). -/
def exec_func_go (ob : Ob) (execR : List Char → List Char → Int × List Event)
    (tname : List Char) (rlist : List SubRule) : Int × List Event :=
  let t := exec_list_go execR rlist [] tname
  match chosen_recipe rlist with
  | some sr =>
    if t.1 = 0 && (sr.rule.action || ob_check_exec ob.fs tname t.2.1) then
      (ob.runInt sr.rule.func, t.2.2 ++ [Event.run sr.rule.func])
    else (t.1, t.2.2)
  | none => (t.1, t.2.2)

/-- ObState::exec_rule.  The C++ recursion has no termination argument of
its own (cyclic rule sets recurse forever), so a fuel bound stands for the
call stack; running out of fuel is reported as an error no claim relies
on.  The first argument after fuel is the target, the second the `from`
context (empty for the nullptr default). -/
def exec_rule (ob : Ob) : Nat → List Char → List Char → Int × List Event
  | 0, _, _ => (1, [Event.err (("recursion fuel exhausted").toList)])
  | fuel + 1, target, frm =>
    match find_rules target ob.rules with
    | .error e => (e.retcode, [Event.err e.msg])
    | .ok rlist =>
      match single_action rlist with
      | some rule => exec_action ob rule
      | none =>
        if rlist.isEmpty && !(ob_check_file ob.fs target) then
          (1, [Event.err (no_rule_msg target frm)])
        else exec_func_go ob (exec_rule ob fuel) target rlist

/-- ObState::exec_func at a given fuel level. -/
def exec_func (ob : Ob) (fuel : Nat) (tname : List Char)
    (rlist : List SubRule) : Int × List Event :=
  exec_func_go ob (exec_rule ob fuel) tname rlist

/-- ObState::exec_list at a given fuel level. -/
def exec_list (ob : Ob) (fuel : Nat) (rlist : List SubRule)
    (subdeps : List (List Char)) (tname : List Char) :
    Int × List (List Char) × List Event :=
  exec_list_go (exec_rule ob fuel) rlist subdeps tname

/-- The dep loop of ObState::exec_list at a given fuel level. -/
def exec_deps (ob : Ob) (fuel : Nat) (sub : List Char)
    (deps : List (List Char)) (subdeps : List (List Char))
    (tname : List Char) : Int × List (List Char) × List Event :=
  exec_deps_go (exec_rule ob fuel) sub deps subdeps tname

/-- ObState::exec_main: the top-level wait_result around exec_rule; in the
sequential model the pushed barrier holds no unfinished tasks and its
result is 0, so the value is exec_rule's. -/
def exec_main (ob : Ob) (fuel : Nat) (target : List Char) : Int × List Event :=
  exec_rule ob fuel target []

/-- ObState::rule_add: split the target and dep strings with the script
host's list tokenisation (an external parameter here, cubescript's
ListParser in the source) and append one rule per target token; a body the
host's cs_code_is_empty judges empty becomes a null recipe. -/
def rule_add (tokenize : List Char → List (List Char))
    (code_is_empty : Option Recipe → Bool) (rules : List Rule)
    (tgt dep : List Char) (body : Option Recipe) (action : Bool) :
    List Rule :=
  rules ++ (tokenize tgt).map fun t =>
    { target := t
      deps := tokenize dep
      func := if code_is_empty body then none else body
      action := action }

/-- The `rule` command registered by ObState::register_rulecmds. -/
def rule_cmd (tokenize : List Char → List (List Char))
    (code_is_empty : Option Recipe → Bool) (rules : List Rule)
    (tgt dep : List Char) (body : Option Recipe) : List Rule :=
  rule_add tokenize code_is_empty rules tgt dep body false

/-- The `depend` command registered by ObState::register_rulecmds: a
rule_add with a null body and action = false. -/
def depend_cmd (tokenize : List Char → List (List Char))
    (code_is_empty : Option Recipe → Bool) (rules : List Rule)
    (tgt dep : List Char) : List Rule :=
  rule_add tokenize code_is_empty rules tgt dep none false

/-- Events on one RuleCounter barrier, read off src/main.cc.  `incr` is
the evaluator incrementing the counter before queueing a task.  A queued
shell task i runs `int ret = system(ds.data()); if (ret &&
!cnt->get_result()) { cnt->get_result() = ret; } cnt->decr();`: `obs i` is
its system() call returning (the task observes its exit status), `rd i`
its atomic load of the barrier's result in the if condition, `wr i` the
atomic store of its code — executed only when its own code is non-zero and
the load saw zero — and `decr i` the final decrement.  The load and the
store are separate atomic accesses, so an interleaving may put other
events between a task's rd and its wr. -/
inductive BEv where
  | incr : BEv
  | obs (i : Nat) : BEv
  | rd (i : Nat) : BEv
  | wr (i : Nat) : BEv
  | decr (i : Nat) : BEv
deriving DecidableEq

/-- RuleCounter state (counter and atomic result), plus the bookkeeping of
which result value each task's rd loaded (newest first). -/
structure BarSt where
  counter : Int
  result : Int
  seen : List (Nat × Int)
deriving DecidableEq

/-- One barrier event, given each task's exit code. -/
def bstep (codes : Nat → Int) (s : BarSt) : BEv → BarSt
  | .incr => { s with counter := s.counter + 1 }
  | .obs _ => s
  | .rd i => { s with seen := (i, s.result) :: s.seen }
  | .wr i =>
    if codes i ≠ 0 ∧ s.seen.lookup i = some 0 then { s with result := codes i }
    else s
  | .decr _ => { s with counter := s.counter - 1 }

/-- Run a schedule of barrier events from the freshly constructed
RuleCounter (counter 0, result 0). -/
def brun (codes : Nat → Int) (evs : List BEv) : BarSt :=
  evs.foldl (bstep codes) ⟨0, 0, []⟩

def countIncr (evs : List BEv) : Nat :=
  evs.countP fun e => e == BEv.incr

def countDecr (evs : List BEv) : Nat :=
  evs.countP fun e =>
    match e with
    | BEv.decr _ => true
    | _ => false

/-- One execution of ObState::wait_result(func): `ret` is func's return
value, `duringF` the events on the pushed barrier while func runs, and
`afterF` those between func's return and wait_result's return. -/
structure WRun where
  ret : Int
  duringF : List BEv
  afterF : List BEv

/-- Which executions the source admits.  In wait_result, `if (ret) return
ret;` comes before ctr.wait(), so on a non-zero ret the function returns
at once and afterF is empty; on a zero ret, ctr.wait() spins `while
(p_counter) p_cond.wait(l);`, so at the return the counter is 0 — and the
barrier was already popped, so no further incr can reach it. -/
def WRun.valid (codes : Nat → Int) (r : WRun) : Prop :=
  if r.ret ≠ 0 then r.afterF = []
  else (brun codes (r.duringF ++ r.afterF)).counter = 0 ∧ BEv.incr ∉ r.afterF

/-- The value wait_result returns: ret when non-zero, otherwise the
barrier's latched result. -/
def WRun.retval (codes : Nat → Int) (r : WRun) : Int :=
  if r.ret ≠ 0 then r.ret else (brun codes (r.duringF ++ r.afterF)).result

/-- The barrier counter at the moment wait_result returns: each unit
counts a task that was incr-ed but has not yet decr-ed, i.e. is still
running. -/
def WRun.outstanding (codes : Nat → Int) (r : WRun) : Int :=
  (brun codes (r.duringF ++ r.afterF)).counter

/-- The chronologically first task in the schedule to observe a non-zero
exit status: the first obs event of a task with a non-zero code. -/
def first_fail_obs (codes : Nat → Int) : List BEv → Option Nat
  | [] => none
  | BEv.obs i :: rest =>
    if codes i ≠ 0 then some i else first_fail_obs codes rest
  | _ :: rest => first_fail_obs codes rest

/-! Lemmas about findPct and ob_compare_subst. -/

theorem findPct_eq_some {p pre post : List Char}
    (h : findPct p = some (pre, post)) :
    p = pre ++ '%' :: post ∧ '%' ∉ pre := by
  induction p generalizing pre post with
  | nil => simp [findPct] at h
  | cons c rest ih =>
    by_cases hc : c = '%'
    · subst hc
      simp [findPct] at h
      obtain ⟨h1, h2⟩ := h
      subst h1; subst h2
      simp
    · simp only [findPct, if_neg hc] at h
      cases hrec : findPct rest with
      | none => rw [hrec] at h; simp at h
      | some pr =>
        obtain ⟨pre2, post2⟩ := pr
        rw [hrec] at h
        simp at h
        obtain ⟨h1, h2⟩ := h
        obtain ⟨hp, hn⟩ := ih hrec
        subst h1; subst h2
        constructor
        · simp [hp]
        · simp [hn]
          intro hcontra
          exact hc hcontra.symm

theorem findPct_of_mem {p : List Char} (h : '%' ∈ p) :
    ∃ pre post, findPct p = some (pre, post) := by
  induction p with
  | nil => simp at h
  | cons c rest ih =>
    by_cases hc : c = '%'
    · exact ⟨[], rest, by simp [findPct, hc]⟩
    · have hm : '%' ∈ rest := by
        rcases List.mem_cons.mp h with h1 | h1
        · exact absurd h1.symm hc
        · exact h1
      obtain ⟨pre, post, hp⟩ := ih hm
      exact ⟨c :: pre, post, by simp [findPct, hc, hp]⟩

theorem findPct_append {pre post : List Char} (hpre : '%' ∉ pre) :
    findPct (pre ++ '%' :: post) = some (pre, post) := by
  induction pre with
  | nil => simp [findPct]
  | cons c rest ih =>
    have hc : c ≠ '%' := fun h => hpre (by simp [h])
    have hm : '%' ∉ rest := fun h => hpre (by simp [h])
    simp [findPct, hc, ih hm]

theorem ob_subst_splice {pre post : List Char} (sub : List Char)
    (hpre : '%' ∉ pre) :
    ob_subst (pre ++ '%' :: post) sub = pre ++ sub ++ post := by
  simp [ob_subst, findPct_append hpre]

/-- A successful ob_compare_subst capture is never empty: both the prefix
and the suffix checks are strict inequalities. -/
theorem compare_subst_ne_nil {e p s : List Char}
    (h : ob_compare_subst e p = some s) : s ≠ [] := by
  unfold ob_compare_subst at h
  cases hf : findPct p with
  | none => rw [hf] at h; simp at h
  | some pr =>
    obtain ⟨fp, rep⟩ := pr
    rw [hf] at h
    simp only at h
    split at h
    · simp at h
    · split at h
      · simp at h
      · split at h
        · simp only [Option.some_inj] at h
          subst h
          rename_i hlen _ _
          have : fp.length < e.length := Nat.lt_of_not_le hlen
          intro hnil
          have : (e.drop fp.length).length = 0 := by rw [hnil]; rfl
          rw [List.length_drop] at this
          omega
        · split at h
          · simp at h
          · split at h
            · simp at h
            · simp only [Option.some_inj] at h
              subst h
              rename_i hrep hlen2 _
              have h2 : rep.length < (e.drop fp.length).length :=
                Nat.lt_of_not_le hlen2
              intro hnil
              have : ((e.drop fp.length).take
                  ((e.drop fp.length).length - rep.length)).length = 0 := by
                rw [hnil]; rfl
              rw [List.length_take] at this
              omega

/-- A successful ob_compare_subst means the pattern contains a %. -/
theorem compare_subst_pct_mem {e p s : List Char}
    (h : ob_compare_subst e p = some s) : '%' ∈ p := by
  unfold ob_compare_subst at h
  cases hf : findPct p with
  | none => rw [hf] at h; simp at h
  | some pr =>
    obtain ⟨fp, rep⟩ := pr
    obtain ⟨hp, _⟩ := findPct_eq_some hf
    rw [hp]
    simp

/-- A concrete target (no %) never equals a pattern it %-matches. -/
theorem compare_subst_target_ne {T p c : List Char} (hT : '%' ∉ T)
    (h : ob_compare_subst T p = some c) : T ≠ p := by
  intro heq
  exact hT (heq ▸ compare_subst_pct_mem h)

/-- The substitution-then-match round trip at the heart of claim C7. -/
theorem compare_subst_of_splice {pre post s : List Char} (hpre : '%' ∉ pre)
    (hs : s ≠ []) :
    ob_compare_subst (pre ++ s ++ post) (pre ++ '%' :: post) = some s := by
  have hslen : 0 < s.length := List.length_pos.mpr hs
  unfold ob_compare_subst
  rw [findPct_append hpre]
  simp only
  rw [if_neg (by simp only [List.length_append]; omega)]
  rw [List.append_assoc]
  rw [if_neg (by rw [List.take_left]; simp)]
  rw [List.drop_left]
  by_cases hpost : post = []
  · subst hpost
    simp
  · rw [if_neg (by simp [List.isEmpty_iff, hpost])]
    rw [if_neg (by simp only [List.length_append]; omega)]
    have hlen : (s ++ post).length - post.length = s.length := by simp
    rw [if_neg (by rw [hlen, List.drop_left]; simp)]
    rw [hlen, List.take_left]

/-- Claim C7: for any pattern P containing % and any non-empty capture s,
splicing s in place of the first % of P yields a concrete string that
ob_compare_subst maps back to exactly s — pattern substitution and pattern
matching are mutually inverse, and the strictness of the length checks is
what makes % capture at least one character. -/
theorem c7_pattern_round_trip (P s : List Char) (hp : '%' ∈ P)
    (hs : s ≠ []) : ob_compare_subst (ob_subst P s) P = some s := by
  obtain ⟨pre, post, hf⟩ := findPct_of_mem hp
  obtain ⟨hP, hpre⟩ := findPct_eq_some hf
  rw [hP, ob_subst_splice s hpre]
  exact compare_subst_of_splice hpre hs

/-- Witness for C7 at the %.o pattern of the spec's scenarios. -/
theorem c7_witness :
    ob_compare_subst (ob_subst (("%.o").toList) (("foo").toList))
      (("%.o").toList) = some (("foo").toList) :=
  c7_pattern_round_trip (("%.o").toList) (("foo").toList) (by decide)
    (by decide)

/-! Claim C6: the rebuild predicate and the run decision. -/

/-- The rebuild predicate spelled out: ob_check_exec is true exactly when
the target is unreadable, some dep is unreadable, the target's get_ts
timestamp is zero, or some dep's timestamp strictly exceeds the
target's. -/
theorem ob_check_exec_iff (fs : FS) (t : List Char)
    (deps : List (List Char)) :
    ob_check_exec fs t deps = true ↔
      fs.readable t = false ∨ (∃ d ∈ deps, fs.readable d = false) ∨
      fs.ts t = 0 ∨ ∃ d ∈ deps, fs.ts t < fs.ts d := by
  unfold ob_check_exec ob_check_file ob_check_ts
  cases hr : fs.readable t with
  | false => simp [hr]
  | true =>
    simp only [hr, Bool.not_true, Bool.false_eq_true, if_false]
    by_cases ha : deps.any (fun dep => !(fs.readable dep)) = true
    · rw [if_pos ha]
      simp only [List.any_eq_true, Bool.not_eq_true'] at ha
      simp [ha]
    · rw [if_neg ha]
      simp only [List.any_eq_true, Bool.not_eq_true'] at ha
      push_neg at ha
      by_cases hts : fs.ts t = 0
      · simp [hts]
      · rw [if_neg hts]
        constructor
        · intro h
          simp only [List.any_eq_true, Bool.and_eq_true, decide_eq_true_eq]
            at h
          obtain ⟨d, hd, _, hlt⟩ := h
          exact Or.inr (Or.inr (Or.inr ⟨d, hd, hlt⟩))
        · intro h
          rcases h with h | h | h | h
          · simp at h
          · obtain ⟨d, hd, hdr⟩ := h
            exact absurd hdr (ha d hd)
          · exact absurd h hts
          · obtain ⟨d, hd, hlt⟩ := h
            simp only [List.any_eq_true, Bool.and_eq_true, decide_eq_true_eq]
            exact ⟨d, hd, by omega, hlt⟩

/-- Claim C6: ob_check_exec(tname, subdeps) is true iff the target file is
missing, some dep file is missing, the target's timestamp is zero, or some
dep's mtime strictly exceeds the target's; and within exec_func (given the
dep walk succeeded with these subdeps and a recipe-bearing SubRule was
selected) the recipe is run — its run event is appended to the trace — iff
that rule is an action or ob_check_exec holds. -/
theorem c6_run_decision :
    (∀ (fs : FS) (t : List Char) (deps : List (List Char)),
      ob_check_exec fs t deps = true ↔
        fs.readable t = false ∨ (∃ d ∈ deps, fs.readable d = false) ∨
        fs.ts t = 0 ∨ ∃ d ∈ deps, fs.ts t < fs.ts d) ∧
    (∀ (ob : Ob) (fuel : Nat) (tname : List Char) (rl : List SubRule)
      (sr : SubRule) (subdeps : List (List Char)) (tr : List Event),
      exec_list ob fuel rl [] tname = (0, subdeps, tr) →
      chosen_recipe rl = some sr →
      ((exec_func ob fuel tname rl).2 = tr ++ [Event.run sr.rule.func] ↔
        (sr.rule.action = true ∨ ob_check_exec ob.fs tname subdeps = true))) := by
  constructor
  · exact ob_check_exec_iff
  · intro ob fuel tname rl sr subdeps tr hlist hsr
    unfold exec_func exec_func_go
    unfold exec_list at hlist
    rw [hlist, hsr]
    simp only
    by_cases hc : sr.rule.action = true ∨ ob_check_exec ob.fs tname subdeps = true
    · have hb : (sr.rule.action || ob_check_exec ob.fs tname subdeps) = true := by
        rcases hc with h | h <;> simp [h]
      simp [hb, hc]
    · have hb : (sr.rule.action || ob_check_exec ob.fs tname subdeps) = false := by
        push_neg at hc
        simp only [Bool.or_eq_false_iff]
        exact ⟨Bool.not_eq_true _ ▸ hc.1, Bool.not_eq_true _ ▸ hc.2⟩
      simp only [hb, Bool.and_false, Bool.false_eq_true, if_false]
      constructor
      · intro h
        have := congrArg List.length h
        simp at this
      · intro h
        exact absurd h hc

def c6w_fs : FS := ⟨fun _ => false, fun _ => 0⟩

def c6w_rule : Rule := ⟨("t").toList, [], some 0, true⟩

def c6w_ob : Ob := ⟨[c6w_rule], c6w_fs, fun _ => 0⟩

/-- Witness for C6: the run decision at a concrete action rule and
a filesystem with nothing on it. -/
theorem c6_witness :
    (ob_check_exec c6w_fs (("t").toList) [] = true ↔
      c6w_fs.readable (("t").toList) = false ∨
      (∃ d ∈ ([] : List (List Char)), c6w_fs.readable d = false) ∨
      c6w_fs.ts (("t").toList) = 0 ∨
      ∃ d ∈ ([] : List (List Char)),
        c6w_fs.ts (("t").toList) < c6w_fs.ts d) ∧
    ((exec_func c6w_ob 0 (("t").toList) [⟨[], c6w_rule⟩]).2 =
        [] ++ [Event.run (some 0)] ↔
      (c6w_rule.action = true ∨
        ob_check_exec c6w_ob.fs (("t").toList) [] = true)) :=
  ⟨c6_run_decision.1 c6w_fs (("t").toList) [],
   c6_run_decision.2 c6w_ob 0 (("t").toList) [⟨[], c6w_rule⟩]
     ⟨[], c6w_rule⟩ [] [] rfl rfl⟩

/-! Claim C10: `rule` with an empty body is observationally `depend`. -/

/-- Claim C10: registering through rule_add with a body the host judges
empty extends the rule sequence exactly as the depend command does with
the same target and dep strings, and every rule either registration
appends has a null recipe and action = false. -/
theorem c10_rule_depend_equiv (tokenize : List Char → List (List Char))
    (code_is_empty : Option Recipe → Bool) (rules : List Rule)
    (tgt dep : List Char) (body : Option Recipe)
    (h : code_is_empty body = true) :
    rule_cmd tokenize code_is_empty rules tgt dep body =
      depend_cmd tokenize code_is_empty rules tgt dep ∧
    ∀ r ∈ depend_cmd tokenize code_is_empty rules tgt dep,
      r ∈ rules ∨ (r.func = none ∧ r.action = false) := by
  constructor
  · simp [rule_cmd, depend_cmd, rule_add, h]
  · intro r hr
    unfold depend_cmd rule_add at hr
    rcases List.mem_append.mp hr with h1 | h1
    · exact Or.inl h1
    · right
      obtain ⟨t, _, rfl⟩ := List.mem_map.mp h1
      exact ⟨by simp, rfl⟩

/-- Witness for C10 at a one-token tokenizer and an empty-judged body. -/
theorem c10_witness :
    rule_cmd (fun l => [l]) (fun _ => true) [] (("a").toList)
        (("b").toList) (some 3) =
      depend_cmd (fun l => [l]) (fun _ => true) [] (("a").toList)
        (("b").toList) ∧
    ∀ r ∈ depend_cmd (fun l => [l]) (fun _ => true) [] (("a").toList)
        (("b").toList),
      r ∈ ([] : List Rule) ∨ (r.func = none ∧ r.action = false) :=
  c10_rule_depend_equiv (fun l => [l]) (fun _ => true) [] (("a").toList)
    (("b").toList) (some 3) rfl

/-! Claim C5: action rules. -/

/-- An action rule reachable through duprule: an action whose clone was
given a dep list. -/
def c5_rule : Rule := ⟨("clean").toList, [("missingdep").toList], some 7, true⟩

def c5_ob : Ob := ⟨[c5_rule], ⟨fun _ => false, fun _ => 0⟩, fun _ => 0⟩

/-- Counterexample to C5 as stated: for the action rule `clean` with dep
`missingdep` (the single matched rule), exec_main runs the recipe and
returns 0 with no other event — the dep is never walked — even though
walking `missingdep` through exec_list would have failed with code 1, as
the second conjunct shows.  So the action's declared deps do NOT still
drive through exec_list here. -/
theorem c5_counterexample :
    exec_main c5_ob 10 (("clean").toList) = (0, [Event.run (some 7)]) ∧
    (exec_rule c5_ob 9 (("missingdep").toList) (("clean").toList)).1 = 1 :=
  ⟨by decide, by decide⟩

/-- Claim C5 amended: when an action is the single matched rule, exec_rule
hands its recipe straight to run_int and returns that result — no dep
walk, no timestamp check, whatever the rules, filesystem or deps; an
action's declared deps drive through exec_list only when the action is not
the single matched rule, and in that case (second conjunct) its recipe
still runs regardless of ob_check_exec provided the dep walk returned
zero. -/
theorem c5_action_amended :
    (∀ (ob : Ob) (fuel : Nat) (T frm : List Char) (sr : SubRule),
      find_rules T ob.rules = .ok [sr] → sr.rule.action = true →
      exec_rule ob (fuel + 1) T frm =
        (ob.runInt sr.rule.func, [Event.run sr.rule.func])) ∧
    (∀ (ob : Ob) (fuel : Nat) (T : List Char) (rl : List SubRule)
      (sd : List (List Char)) (tr : List Event) (sr : SubRule),
      exec_list ob fuel rl [] T = (0, sd, tr) →
      chosen_recipe rl = some sr → sr.rule.action = true →
      exec_func ob fuel T rl =
        (ob.runInt sr.rule.func, tr ++ [Event.run sr.rule.func])) := by
  constructor
  · intro ob fuel T frm sr hfind hact
    simp only [exec_rule]
    rw [hfind]
    simp [single_action, hact, exec_action]
  · intro ob fuel T rl sd tr sr hlist hsr hact
    unfold exec_func exec_func_go
    unfold exec_list at hlist
    rw [hlist, hsr]
    simp [hact]

/-- Witness for the amended C5 at the `clean` action. -/
theorem c5_witness :
    exec_rule c5_ob 3 (("clean").toList) [] =
      ((0 : Int), [Event.run (some 7)]) :=
  c5_action_amended.1 c5_ob 2 (("clean").toList) [] ⟨[], c5_rule⟩ rfl rfl

/-! Claim C3: the "simple up-to-date" scenario. -/

def c3_rule_test : Rule := ⟨("test").toList, [("foo.o").toList], none, false⟩

def c3_rule_pat : Rule := ⟨("%.o").toList, [("%.c").toList], some 0, false⟩

def c3_fs : FS :=
  ⟨fun f => f == ("foo.c").toList || f == ("foo.o").toList,
   fun f => if f = ("foo.c").toList then 100
            else if f = ("foo.o").toList then 200 else 0⟩

def c3_ob : Ob := ⟨[c3_rule_test, c3_rule_pat], c3_fs, fun _ => 0⟩

/-- Counterexample to C3 as stated: with rule `test` (deps foo.o, no
recipe), pattern rule `%.o` with a recipe, foo.c at mtime 100, foo.o at
mtime 200 and `test` absent, exec_main("test") succeeds with exit code 0
and writes no error at all — the claimed exit 1 with "no rule to run
target 'test'" does not happen, because the recipe-less exact rule for
`test` is in the match list, so the MissingRule branch is not taken. -/
theorem c3_counterexample :
    exec_main c3_ob 10 (("test").toList) = (0, []) ∧ ((0 : Int) ≠ 1) :=
  ⟨by decide, by decide⟩

/-- Claim C3 amended: in that scenario exec_main("test") returns 0 with no
recipe run and no error; the MissingRule error "no rule to run target …"
is raised (second conjunct) exactly when find_rules returns an empty match
list AND the target is not a readable file. -/
theorem c3_amended :
    exec_main c3_ob 10 (("test").toList) = (0, []) ∧
    (∀ (ob : Ob) (fuel : Nat) (T : List Char),
      find_rules T ob.rules = .ok [] → ob_check_file ob.fs T = false →
      exec_rule ob (fuel + 1) T [] =
        (1, [Event.err (("no rule to run target \x27").toList ++ T
          ++ ("\x27").toList)])) := by
  constructor
  · decide
  · intro ob fuel T hf hcf
    simp only [exec_rule]
    rw [hf]
    simp [single_action, hcf, no_rule_msg]

def c3w_ob : Ob := ⟨[], ⟨fun _ => false, fun _ => 0⟩, fun _ => 0⟩

/-- Witness for the amended C3: an empty rule set and an unreadable target
produce the MissingRule error. -/
theorem c3_witness :
    exec_rule c3w_ob 1 (("x").toList) [] =
      (1, [Event.err (("no rule to run target \x27").toList
        ++ ("x").toList ++ ("\x27").toList)]) :=
  c3_amended.2 c3w_ob 0 (("x").toList) rfl rfl

/-! Claim C9: dep tokens containing % under an empty capture. -/

def c9_rule : Rule := ⟨("tgt").toList, [("a%b").toList], some 1, false⟩

def c9_ob : Ob := ⟨[c9_rule], ⟨fun _ => false, fun _ => 0⟩, fun _ => 0⟩

/-- Counterexample to C9 as stated: the exact rule `tgt` has dep token
`a%b` and, its capture being empty, exec_list resolves the dep to `ab` —
the % is removed, not kept literally; the error message names the
concrete dep `ab`, and `ab` differs from the verbatim token `a%b`. -/
theorem c9_counterexample :
    exec_main c9_ob 10 (("tgt").toList) =
      (1, [Event.err (("no rule to run target \x27ab\x27 (needed by \x27tgt\x27)").toList)]) ∧
    ("ab").toList ≠ ("a%b").toList :=
  ⟨by decide, by decide⟩

/-- Claim C9 amended: a dep token pre%post resolved for a SubRule with an
empty capture is spliced with the empty string — the % is dropped and the
concrete dep pre++post is what the dep loop appends to subdeps (the token
is NOT taken verbatim; only tokens without % are). -/
theorem c9_empty_capture_splice (pre post : List Char) (hpre : '%' ∉ pre) :
    ob_subst (pre ++ '%' :: post) [] = pre ++ post ∧
    ∀ (execR : List Char → List Char → Int × List Event)
      (sd : List (List Char)) (tname : List Char),
      (exec_deps_go execR [] [pre ++ '%' :: post] sd tname).2.1 =
        sd ++ [pre ++ post] := by
  have hsub : ob_subst (pre ++ '%' :: post) [] = pre ++ post := by
    rw [ob_subst_splice [] hpre]
    simp
  refine ⟨hsub, ?_⟩
  intro execR sd tname
  simp only [exec_deps_go, hsub]
  split
  · rfl
  · simp [exec_deps_go]

/-- Witness for the amended C9 at the dep token `a%b`. -/
theorem c9_witness :
    ob_subst (("a").toList ++ '%' :: ("b").toList) [] =
      ("a").toList ++ ("b").toList ∧
    (exec_deps_go (fun _ _ => ((0 : Int), ([] : List Event)))
        [] [("a").toList ++ '%' :: ("b").toList] [] []).2.1 =
      [] ++ [("a").toList ++ ("b").toList] :=
  ⟨(c9_empty_capture_splice (("a").toList) (("b").toList) (by decide)).1,
   (c9_empty_capture_splice (("a").toList) (("b").toList) (by decide)).2
     (fun _ _ => ((0 : Int), ([] : List Event))) [] []⟩

/-! Claim C2: shortest-wildcard wins, equal captures are an error. -/

/-- One find_rules step on a pattern-matching recipe-bearing rule when no
candidate is chosen yet: the SubRule is appended and becomes the chosen
one. -/
theorem find_step_pat_none (T : List Char) (st : FindSt) (r : Rule)
    (c : List Char) (hex : st.exact = false) (hfr : st.frule = none)
    (hT : '%' ∉ T) (hf : r.func.isSome = true)
    (hm : ob_compare_subst T r.target = some c) :
    find_step T st r =
      .ok ⟨st.rlist ++ [{ sub := c, rule := r }], some st.rlist.length,
        false⟩ := by
  have hne : T ≠ r.target := compare_subst_target_ne hT hm
  have hc : c.isEmpty = false := by
    cases hcc : c with
    | nil => exact absurd rfl (hcc ▸ compare_subst_ne_nil hm)
    | cons a l => rfl
  obtain ⟨v, hv⟩ := Option.isSome_iff_exists.mp hf
  unfold find_step
  rw [if_neg hne, hex, hv, hm]
  simp [hc, hfr, hex]

/-- One find_rules step on a pattern-matching recipe-bearing rule when a
pattern candidate is already chosen at slot p: equal capture lengths are
the redefinition error, a shorter capture replaces the candidate in its
slot, a longer one stays in the list behind it. -/
theorem find_step_pat_some (T : List Char) (st : FindSt) (r : Rule)
    (c : List Char) (p : Nat) (hex : st.exact = false)
    (hfr : st.frule = some p) (hT : '%' ∉ T) (hf : r.func.isSome = true)
    (hm : ob_compare_subst T r.target = some c) :
    find_step T st r =
      if c.length = (st.rlist.getD p default).sub.length then
        .error ⟨1, redef_msg T⟩
      else if c.length < (st.rlist.getD p default).sub.length then
        .ok { rlist := ((st.rlist ++ [({ sub := c, rule := r } : SubRule)]).set
                p ({ sub := c, rule := r } : SubRule)).dropLast,
              frule := some p, exact := false }
      else
        .ok { rlist := st.rlist ++ [({ sub := c, rule := r } : SubRule)],
              frule := some p, exact := false } := by
  have hne : T ≠ r.target := compare_subst_target_ne hT hm
  have hc : c.isEmpty = false := by
    cases hcc : c with
    | nil => exact absurd rfl (hcc ▸ compare_subst_ne_nil hm)
    | cons a l => rfl
  obtain ⟨v, hv⟩ := Option.isSome_iff_exists.mp hf
  unfold find_step
  rw [if_neg hne, hex, hv, hm]
  simp [hc, hfr, hex]

/-- Claim C2: for two pattern rules with recipes both matching a concrete
target T (no % in T) with captures c1 and c2, in either declaration order:
if |c1| < |c2| the rule capturing c1 is the chosen recipe-bearing rule in
find_rules' result (the first recipe-bearing SubRule, which is what
exec_func runs); if |c1| = |c2| find_rules fails with retcode 1 and the
message "redefinition of rule 'T'". -/
theorem c2_shortest_wildcard (T : List Char) (r1 r2 : Rule)
    (c1 c2 : List Char) (hT : '%' ∉ T)
    (h1 : r1.func.isSome = true) (h2 : r2.func.isSome = true)
    (m1 : ob_compare_subst T r1.target = some c1)
    (m2 : ob_compare_subst T r2.target = some c2) :
    (c1.length < c2.length →
      (∃ rl, find_rules T [r1, r2] = .ok rl ∧
        chosen_recipe rl = some ⟨c1, r1⟩) ∧
      (∃ rl, find_rules T [r2, r1] = .ok rl ∧
        chosen_recipe rl = some ⟨c1, r1⟩)) ∧
    (c1.length = c2.length →
      find_rules T [r1, r2] = .error ⟨1, redef_msg T⟩ ∧
      find_rules T [r2, r1] = .error ⟨1, redef_msg T⟩) := by
  have s1 := find_step_pat_none T ⟨[], none, false⟩ r1 c1 rfl rfl hT h1 m1
  have s1r := find_step_pat_none T ⟨[], none, false⟩ r2 c2 rfl rfl hT h2 m2
  have s2 := find_step_pat_some T ⟨[⟨c1, r1⟩], some 0, false⟩ r2 c2 0 rfl rfl
    hT h2 m2
  have s2r := find_step_pat_some T ⟨[⟨c2, r2⟩], some 0, false⟩ r1 c1 0 rfl rfl
    hT h1 m1
  dsimp only [List.nil_append, List.length_nil] at s1 s1r
  simp only [List.getD_cons_zero] at s2 s2r
  constructor
  · intro hlt
    rw [if_neg (by omega), if_neg (by omega)] at s2
    rw [if_neg (by omega), if_pos hlt] at s2r
    constructor
    · refine ⟨[⟨c1, r1⟩, ⟨c2, r2⟩], ?_, ?_⟩
      · show find_rules_go T ⟨[], none, false⟩ [r1, r2] = _
        simp [find_rules_go, s1, s2]
      · simp [chosen_recipe, List.find?, h1]
    · refine ⟨[⟨c1, r1⟩], ?_, ?_⟩
      · show find_rules_go T ⟨[], none, false⟩ [r2, r1] = _
        simp [find_rules_go, s1r, s2r]
      · simp [chosen_recipe, List.find?, h1]
  · intro heq
    rw [if_pos heq.symm] at s2
    rw [if_pos heq] at s2r
    constructor
    · show find_rules_go T ⟨[], none, false⟩ [r1, r2] = _
      simp [find_rules_go, s1, s2]
    · show find_rules_go T ⟨[], none, false⟩ [r2, r1] = _
      simp [find_rules_go, s1r, s2r]

def c2_r1 : Rule := ⟨("foo%.o").toList, [("foo%.c").toList], some 1, false⟩

def c2_r2 : Rule := ⟨("%.o").toList, [("%.c").toList], some 2, false⟩

/-- Witness for C2 at the spec's shortest-pattern scenario: `foo%.o`
captures `_x` (length 2) on `foo_x.o`, `%.o` captures `foo_x` (length 5),
and the former is chosen in either order. -/
theorem c2_witness :
    (∃ rl, find_rules (("foo_x.o").toList) [c2_r1, c2_r2] = .ok rl ∧
      chosen_recipe rl = some ⟨("_x").toList, c2_r1⟩) ∧
    ∃ rl, find_rules (("foo_x.o").toList) [c2_r2, c2_r1] = .ok rl ∧
      chosen_recipe rl = some ⟨("_x").toList, c2_r1⟩ :=
  (c2_shortest_wildcard (("foo_x.o").toList) c2_r1 c2_r2 (("_x").toList)
    (("foo_x").toList) (by decide) (by decide) (by decide) (by decide)
    (by decide)).1 (by decide)

/-! Claim C4: recipe-less rules in the resolver.  The development below
analyses one find_rules scan step under each guard combination, then runs
inductions over the whole scan. -/

theorem getD_concat_self {α : Type} [Inhabited α] (l : List α) (e : α) :
    (l ++ [e]).getD l.length default = e := by
  induction l with
  | nil => rfl
  | cons a t ih => simp [ih]

theorem set_append_dropLast {α : Type} (l : List α) (e e2 : α) (p : Nat)
    (hp : p < l.length) :
    ((l ++ [e]).set p e2).dropLast = l.set p e2 := by
  rw [List.set_append, if_pos hp, List.dropLast_concat]

theorem getD_set_self {α : Type} [Inhabited α] (l : List α) (p : Nat)
    (e : α) (hp : p < l.length) : (l.set p e).getD p default = e := by
  rw [List.getD_eq_getElem _ _ (by simpa using hp), List.getElem_set_self]

theorem mem_set_of_ne_getD {α : Type} [Inhabited α] {l : List α} {p : Nat}
    {e x : α} (hp : p < l.length) (hx : x ∈ l)
    (hne : x ≠ l.getD p default) : x ∈ l.set p e := by
  obtain ⟨q, hq, hget⟩ := List.getElem_of_mem hx
  have hqp : q ≠ p := by
    intro h
    subst h
    exact hne (by rw [List.getD_eq_getElem _ _ hq, hget])
  have hq2 : q < (l.set p e).length := by simpa using hq
  have := List.getElem_set_ne (l := l) (i := p) (j := q) hqp.symm (a := e) hq2
  rw [hget] at this
  exact this ▸ List.getElem_mem hq2

/-- find_rules step, exact match, rule without recipe: plain push. -/
theorem find_step_exact_nofunc (T : List Char) (st : FindSt) (r : Rule)
    (hT : T = r.target) (hf : r.func.isSome = false) :
    find_step T st r = .ok ⟨st.rlist ++ [⟨[], r⟩], st.frule, st.exact⟩ := by
  unfold find_step
  rw [if_pos hT, hf]
  simp

/-- find_rules step, exact match with recipe, nothing chosen yet. -/
theorem find_step_exact_first (T : List Char) (st : FindSt) (r : Rule)
    (hT : T = r.target) (hf : r.func.isSome = true)
    (hfr : st.frule = none) :
    find_step T st r =
      .ok ⟨st.rlist ++ [⟨[], r⟩], some st.rlist.length, true⟩ := by
  unfold find_step
  rw [if_pos hT, hf, hfr]
  simp

/-- find_rules step, second exact recipe: redefinition error. -/
theorem find_step_exact_redef (T : List Char) (st : FindSt) (r : Rule)
    (p : Nat) (hT : T = r.target) (hf : r.func.isSome = true)
    (hfr : st.frule = some p) (hex : st.exact = true) :
    find_step T st r = .error ⟨1, redef_msg T⟩ := by
  unfold find_step
  rw [if_pos hT, hf, hfr, hex]
  simp

/-- find_rules step, exact recipe displacing a pattern candidate. -/
theorem find_step_exact_replace (T : List Char) (st : FindSt) (r : Rule)
    (p : Nat) (hT : T = r.target) (hf : r.func.isSome = true)
    (hfr : st.frule = some p) (hex : st.exact = false) :
    find_step T st r =
      .ok ⟨((st.rlist ++ [({ sub := [], rule := r } : SubRule)]).set p
        ({ sub := [], rule := r } : SubRule)).dropLast, some p, true⟩ := by
  unfold find_step
  rw [if_pos hT, hf, hfr, hex]
  simp

/-- find_rules step, non-exact rule skipped because an exact recipe was
already chosen. -/
theorem find_step_skip_exact (T : List Char) (st : FindSt) (r : Rule)
    (hT : T ≠ r.target) (hex : st.exact = true) :
    find_step T st r = .ok st := by
  unfold find_step
  rw [if_neg hT, hex]
  simp

/-- find_rules step, non-exact recipe-less rule skipped. -/
theorem find_step_skip_nofunc (T : List Char) (st : FindSt) (r : Rule)
    (hT : T ≠ r.target) (hf : r.func.isSome = false) :
    find_step T st r = .ok st := by
  unfold find_step
  rw [if_neg hT]
  have : r.func.isNone = true := by
    cases h : r.func with
    | none => rfl
    | some v => rw [h] at hf; simp at hf
  rw [this]
  simp

/-- find_rules step, pattern does not match. -/
theorem find_step_skip_nomatch (T : List Char) (st : FindSt) (r : Rule)
    (hT : T ≠ r.target) (hex : st.exact = false)
    (hf : r.func.isSome = true)
    (hm : ob_compare_subst T r.target = none) :
    find_step T st r = .ok st := by
  obtain ⟨v, hv⟩ := Option.isSome_iff_exists.mp hf
  unfold find_step
  rw [if_neg hT, hex, hv, hm]
  simp

/-- find_rules step, matching pattern recipe, nothing chosen yet. -/
theorem find_step_pat_first (T : List Char) (st : FindSt) (r : Rule)
    (sub : List Char) (hT : T ≠ r.target) (hex : st.exact = false)
    (hf : r.func.isSome = true)
    (hm : ob_compare_subst T r.target = some sub) (hs : sub ≠ [])
    (hfr : st.frule = none) :
    find_step T st r =
      .ok ⟨st.rlist ++ [⟨sub, r⟩], some st.rlist.length, st.exact⟩ := by
  obtain ⟨v, hv⟩ := Option.isSome_iff_exists.mp hf
  have hc : sub.isEmpty = false := by
    cases hcc : sub with
    | nil => exact absurd hcc hs
    | cons a l => rfl
  unfold find_step
  rw [if_neg hT, hex, hv, hm]
  simp [hc, hfr]

/-- find_rules step, matching pattern recipe against a chosen slot: tie on
capture length. -/
theorem find_step_pat_redef (T : List Char) (st : FindSt) (r : Rule)
    (sub : List Char) (p : Nat) (hT : T ≠ r.target) (hex : st.exact = false)
    (hf : r.func.isSome = true)
    (hm : ob_compare_subst T r.target = some sub) (hs : sub ≠ [])
    (hfr : st.frule = some p)
    (hlen : sub.length = (st.rlist.getD p default).sub.length) :
    find_step T st r = .error ⟨1, redef_msg T⟩ := by
  obtain ⟨v, hv⟩ := Option.isSome_iff_exists.mp hf
  have hc : sub.isEmpty = false := by
    cases hcc : sub with
    | nil => exact absurd hcc hs
    | cons a l => rfl
  unfold find_step
  rw [if_neg hT, hex, hv, hm]
  simp only [Option.isNone_some, Bool.or_false, Bool.false_eq_true, if_false,
    hc, hfr]
  rw [if_pos hlen]

/-- find_rules step, matching pattern recipe with a shorter capture:
replaces the chosen slot. -/
theorem find_step_pat_shorter (T : List Char) (st : FindSt) (r : Rule)
    (sub : List Char) (p : Nat) (hT : T ≠ r.target) (hex : st.exact = false)
    (hf : r.func.isSome = true)
    (hm : ob_compare_subst T r.target = some sub) (hs : sub ≠ [])
    (hfr : st.frule = some p)
    (hlen : sub.length < (st.rlist.getD p default).sub.length) :
    find_step T st r =
      .ok ⟨((st.rlist ++ [({ sub := sub, rule := r } : SubRule)]).set p
        ({ sub := sub, rule := r } : SubRule)).dropLast, some p,
        st.exact⟩ := by
  obtain ⟨v, hv⟩ := Option.isSome_iff_exists.mp hf
  have hc : sub.isEmpty = false := by
    cases hcc : sub with
    | nil => exact absurd hcc hs
    | cons a l => rfl
  unfold find_step
  rw [if_neg hT, hex, hv, hm]
  simp only [Option.isNone_some, Bool.or_false, Bool.false_eq_true, if_false,
    hc, hfr]
  rw [if_neg (by omega), if_pos hlen]

/-- find_rules step, matching pattern recipe with a longer capture: stays
in the list behind the chosen slot. -/
theorem find_step_pat_longer (T : List Char) (st : FindSt) (r : Rule)
    (sub : List Char) (p : Nat) (hT : T ≠ r.target) (hex : st.exact = false)
    (hf : r.func.isSome = true)
    (hm : ob_compare_subst T r.target = some sub) (hs : sub ≠ [])
    (hfr : st.frule = some p)
    (hlen : (st.rlist.getD p default).sub.length < sub.length) :
    find_step T st r = .ok ⟨st.rlist ++ [⟨sub, r⟩], st.frule, st.exact⟩ := by
  obtain ⟨v, hv⟩ := Option.isSome_iff_exists.mp hf
  have hc : sub.isEmpty = false := by
    cases hcc : sub with
    | nil => exact absurd hcc hs
    | cons a l => rfl
  unfold find_step
  rw [if_neg hT, hex, hv, hm]
  simp only [Option.isNone_some, Bool.or_false, Bool.false_eq_true, if_false,
    hc, hfr]
  rw [if_neg (by omega), if_neg (by omega)]

/-- Well-formedness of the find_rules loop state: the C++ frule pointer,
when set, designates a live slot of the rlist vector holding a
recipe-bearing entry. -/
def FindInv (st : FindSt) : Prop :=
  ∀ p, st.frule = some p →
    p < st.rlist.length ∧ (st.rlist.getD p default).rule.func.isSome = true

/-- The SubRule the C++ frule pointer designates, when set. -/
def frule_entry (st : FindSt) : Option SubRule :=
  st.frule.map fun p => st.rlist.getD p default

def exceptOk {ε α : Type} : Except ε α → Bool
  | .ok _ => true
  | .error _ => false

theorem frule_entry_none {st : FindSt} (h : st.frule = none) :
    frule_entry st = none := by
  simp [frule_entry, h]

theorem frule_entry_some {st : FindSt} {p : Nat} (h : st.frule = some p) :
    frule_entry st = some (st.rlist.getD p default) := by
  simp [frule_entry, h]

/-- Pushing an entry at the back of the rlist vector moves neither the
chosen slot nor its contents. -/
theorem frule_entry_push (st : FindSt) (e : SubRule) (b : Bool)
    (hinv : FindInv st) :
    frule_entry ⟨st.rlist ++ [e], st.frule, b⟩ = frule_entry st := by
  unfold frule_entry
  dsimp only
  cases hfr : st.frule with
  | none => rfl
  | some p =>
    obtain ⟨hp, _⟩ := hinv p hfr
    simp only [Option.map_some']
    rw [List.getD_append _ _ _ _ hp]

theorem FindInv_push (st : FindSt) (e : SubRule) (b : Bool)
    (hinv : FindInv st) : FindInv ⟨st.rlist ++ [e], st.frule, b⟩ := by
  intro p hp
  dsimp only at hp ⊢
  obtain ⟨hlt, hfu⟩ := hinv p hp
  constructor
  · simp only [List.length_append]
    omega
  · rw [List.getD_append _ _ _ _ hlt]
    exact hfu

/-- A recipe-less rule never fails the scan step and leaves the exact flag
and the chosen entry untouched. -/
theorem find_step_funcless (T : List Char) (r : Rule) (st : FindSt)
    (hinv : FindInv st) (hf : r.func.isSome = false) :
    ∃ st2, find_step T st r = .ok st2 ∧ st2.exact = st.exact ∧
      frule_entry st2 = frule_entry st ∧ FindInv st2 := by
  by_cases hT : T = r.target
  · exact ⟨⟨st.rlist ++ [⟨[], r⟩], st.frule, st.exact⟩,
      find_step_exact_nofunc T st r hT hf, rfl,
      frule_entry_push st _ _ hinv, FindInv_push st _ _ hinv⟩
  · exact ⟨st, find_step_skip_nofunc T st r hT hf, rfl, rfl, hinv⟩

/-- Per-step membership analysis of the find_rules scan: the invariant is
preserved; every new entry is recipe-bearing or the exact-match push of a
recipe-less rule; recipe-less entries already in the list survive; and a
recipe-less exact match is pushed. -/
theorem find_step_mem (T : List Char) (r : Rule) (st st2 : FindSt)
    (hinv : FindInv st) (hstep : find_step T st r = .ok st2) :
    FindInv st2 ∧
    (∀ x ∈ st2.rlist, x ∈ st.rlist ∨ x.rule.func.isSome = true ∨
      (x = ⟨[], r⟩ ∧ T = r.target)) ∧
    (∀ x ∈ st.rlist, x.rule.func.isSome = false → x ∈ st2.rlist) ∧
    (T = r.target → r.func.isSome = false →
      (⟨[], r⟩ : SubRule) ∈ st2.rlist) := by
  by_cases hT : T = r.target
  · cases hf : r.func.isSome with
    | false =>
      rw [find_step_exact_nofunc T st r hT hf] at hstep
      simp only [Except.ok.injEq] at hstep
      subst hstep
      refine ⟨?_, ?_, ?_, ?_⟩
      · intro p hp
        obtain ⟨hlt, hfu⟩ := hinv p hp
        exact ⟨by simp; omega, by rw [List.getD_append _ _ _ _ hlt]; exact hfu⟩
      · intro x hx
        rcases List.mem_append.mp hx with h | h
        · exact Or.inl h
        · exact Or.inr (Or.inr ⟨List.mem_singleton.mp h, hT⟩)
      · intro x hx _
        exact List.mem_append_left _ hx
      · intro _ _
        simp
    | true =>
      cases hfr : st.frule with
      | none =>
        rw [find_step_exact_first T st r hT hf hfr] at hstep
        simp only [Except.ok.injEq] at hstep
        subst hstep
        refine ⟨?_, ?_, ?_, ?_⟩
        · intro p hp
          simp only [Option.some_inj] at hp
          subst hp
          refine ⟨by simp, ?_⟩
          rw [getD_concat_self]
          exact hf
        · intro x hx
          rcases List.mem_append.mp hx with h | h
          · exact Or.inl h
          · rw [List.mem_singleton.mp h]
            exact Or.inr (Or.inl hf)
        · intro x hx _
          exact List.mem_append_left _ hx
        · intro _ hcontra
          simp [hf] at hcontra
      | some p =>
        cases hexv : st.exact with
        | true =>
          rw [find_step_exact_redef T st r p hT hf hfr hexv] at hstep
          cases hstep
        | false =>
          obtain ⟨hp, hslot⟩ := hinv p hfr
          rw [find_step_exact_replace T st r p hT hf hfr hexv] at hstep
          simp only [Except.ok.injEq] at hstep
          rw [set_append_dropLast _ _ _ _ hp] at hstep
          subst hstep
          refine ⟨?_, ?_, ?_, ?_⟩
          · intro q hq
            simp only [Option.some_inj] at hq
            subst hq
            refine ⟨by simpa using hp, ?_⟩
            rw [getD_set_self _ _ _ hp]
            exact hf
          · intro x hx
            rcases List.mem_or_eq_of_mem_set hx with h | h
            · exact Or.inl h
            · subst h
              exact Or.inr (Or.inl hf)
          · intro x hx hxf
            refine mem_set_of_ne_getD hp hx ?_
            intro hcontra
            rw [hcontra, hslot] at hxf
            cases hxf
          · intro _ hcontra
            simp [hf] at hcontra
  · -- not an exact match: the list only ever gains recipe-bearing entries
    cases hexv : st.exact with
    | true =>
      rw [find_step_skip_exact T st r hT hexv] at hstep
      simp only [Except.ok.injEq] at hstep
      subst hstep
      exact ⟨hinv, fun x hx => Or.inl hx, fun x hx _ => hx,
        fun h _ => absurd h hT⟩
    | false =>
      cases hf : r.func.isSome with
      | false =>
        rw [find_step_skip_nofunc T st r hT hf] at hstep
        simp only [Except.ok.injEq] at hstep
        subst hstep
        exact ⟨hinv, fun x hx => Or.inl hx, fun x hx _ => hx,
          fun h _ => absurd h hT⟩
      | true =>
        cases hm : ob_compare_subst T r.target with
        | none =>
          rw [find_step_skip_nomatch T st r hT hexv hf hm] at hstep
          simp only [Except.ok.injEq] at hstep
          subst hstep
          exact ⟨hinv, fun x hx => Or.inl hx, fun x hx _ => hx,
            fun h _ => absurd h hT⟩
        | some sub =>
          have hs : sub ≠ [] := compare_subst_ne_nil hm
          cases hfr : st.frule with
          | none =>
            rw [find_step_pat_first T st r sub hT hexv hf hm hs hfr]
              at hstep
            simp only [Except.ok.injEq] at hstep
            subst hstep
            refine ⟨?_, ?_, ?_, ?_⟩
            · intro q hq
              simp only [Option.some_inj] at hq
              subst hq
              refine ⟨by simp, ?_⟩
              rw [getD_concat_self]
              exact hf
            · intro x hx
              rcases List.mem_append.mp hx with h | h
              · exact Or.inl h
              · rw [List.mem_singleton.mp h]
                exact Or.inr (Or.inl hf)
            · intro x hx _
              exact List.mem_append_left _ hx
            · intro h _
              exact absurd h hT
          | some p =>
            obtain ⟨hp, hslot⟩ := hinv p hfr
            rcases Nat.lt_trichotomy sub.length
              (st.rlist.getD p default).sub.length with hlen | hlen | hlen
            · rw [find_step_pat_shorter T st r sub p hT hexv hf hm hs hfr
                hlen] at hstep
              simp only [Except.ok.injEq] at hstep
              rw [set_append_dropLast _ _ _ _ hp] at hstep
              subst hstep
              refine ⟨?_, ?_, ?_, ?_⟩
              · intro q hq
                simp only [Option.some_inj] at hq
                subst hq
                refine ⟨by simpa using hp, ?_⟩
                rw [getD_set_self _ _ _ hp]
                exact hf
              · intro x hx
                rcases List.mem_or_eq_of_mem_set hx with h | h
                · exact Or.inl h
                · subst h
                  exact Or.inr (Or.inl hf)
              · intro x hx hxf
                refine mem_set_of_ne_getD hp hx ?_
                intro hcontra
                rw [hcontra, hslot] at hxf
                cases hxf
              · intro h _
                exact absurd h hT
            · rw [find_step_pat_redef T st r sub p hT hexv hf hm hs hfr
                hlen] at hstep
              cases hstep
            · rw [find_step_pat_longer T st r sub p hT hexv hf hm hs hfr
                hlen] at hstep
              simp only [Except.ok.injEq] at hstep
              subst hstep
              refine ⟨?_, ?_, ?_, ?_⟩
              · intro q hq
                rw [hfr] at hq
                simp only [Option.some_inj] at hq
                subst hq
                exact ⟨by simp; omega,
                  by rw [List.getD_append _ _ _ _ hp]; exact hslot⟩
              · intro x hx
                rcases List.mem_append.mp hx with h | h
                · exact Or.inl h
                · rw [List.mem_singleton.mp h]
                  exact Or.inr (Or.inl hf)
              · intro x hx _
                exact List.mem_append_left _ hx
              · intro h _
                exact absurd h hT

/-- Scan-level membership: from any well-formed state, a successful
find_rules scan keeps every recipe-less entry already present, adds the
exact-match push of every recipe-less rule scanned, and every entry of the
result is an old one, recipe-bearing, or an exact match of the target. -/
theorem find_rules_go_mem (T : List Char) (rules : List Rule) :
    ∀ st : FindSt, FindInv st →
    ∀ rl, find_rules_go T st rules = .ok rl →
    (∀ x ∈ rl, x ∈ st.rlist ∨ x.rule.func.isSome = true ∨
      T = x.rule.target) ∧
    (∀ x ∈ st.rlist, x.rule.func.isSome = false → x ∈ rl) ∧
    (∀ r ∈ rules, r.func.isSome = false → r.target = T →
      (⟨[], r⟩ : SubRule) ∈ rl) := by
  induction rules with
  | nil =>
    intro st hinv rl hgo
    simp only [find_rules_go, Except.ok.injEq] at hgo
    subst hgo
    exact ⟨fun x hx => Or.inl hx, fun x hx _ => hx, by simp⟩
  | cons r rs ih =>
    intro st hinv rl hgo
    cases hstep : find_step T st r with
    | error e =>
      rw [find_rules_go, hstep] at hgo
      cases hgo
    | ok st2 =>
      rw [find_rules_go, hstep] at hgo
      obtain ⟨hinv2, hfwd, hpers, hlast⟩ := find_step_mem T r st st2 hinv hstep
      obtain ⟨ih1, ih2, ih3⟩ := ih st2 hinv2 rl hgo
      refine ⟨?_, ?_, ?_⟩
      · intro x hx
        rcases ih1 x hx with h | h | h
        · rcases hfwd x h with h2 | h2 | h2
          · exact Or.inl h2
          · exact Or.inr (Or.inl h2)
          · refine Or.inr (Or.inr ?_)
            rw [h2.1]
            exact h2.2
        · exact Or.inr (Or.inl h)
        · exact Or.inr (Or.inr h)
      · intro x hx hxf
        exact ih2 x (hpers x hx hxf) hxf
      · intro r2 hr2 hf2 ht2
        rcases List.mem_cons.mp hr2 with h | h
        · subst h
          exact ih2 _ (hlast ht2.symm hf2) hf2
        · exact ih3 r2 h hf2 ht2

/-- One scan step on a recipe-bearing rule, run from two states agreeing
on the exact flag and the chosen entry: both fail with the same error, or
both succeed still agreeing. -/
theorem find_step_sim (T : List Char) (r : Rule) (st1 st2 : FindSt)
    (hf : r.func.isSome = true) (hex : st1.exact = st2.exact)
    (hfe : frule_entry st1 = frule_entry st2)
    (hinv1 : FindInv st1) (hinv2 : FindInv st2) :
    (∃ e, find_step T st1 r = .error e ∧ find_step T st2 r = .error e) ∨
    (∃ su1 su2, find_step T st1 r = .ok su1 ∧ find_step T st2 r = .ok su2 ∧
      su1.exact = su2.exact ∧ frule_entry su1 = frule_entry su2 ∧
      FindInv su1 ∧ FindInv su2) := by
  cases hfr1 : st1.frule with
  | none =>
    have hfr2 : st2.frule = none := by
      cases hfr2v : st2.frule with
      | none => rfl
      | some q =>
        rw [frule_entry_none hfr1, frule_entry_some hfr2v] at hfe
        cases hfe
    by_cases hT : T = r.target
    · -- first exact recipe on both sides
      refine Or.inr ⟨_, _, find_step_exact_first T st1 r hT hf hfr1,
        find_step_exact_first T st2 r hT hf hfr2, rfl, ?_, ?_, ?_⟩
      · unfold frule_entry
        dsimp only
        simp only [Option.map_some']
        rw [getD_concat_self, getD_concat_self]
      · intro p hp
        dsimp only at hp ⊢
        simp only [Option.some_inj] at hp
        subst hp
        exact ⟨by simp, by rw [getD_concat_self]; exact hf⟩
      · intro p hp
        dsimp only at hp ⊢
        simp only [Option.some_inj] at hp
        subst hp
        exact ⟨by simp, by rw [getD_concat_self]; exact hf⟩
    · cases hexv : st1.exact with
      | true =>
        exact Or.inr ⟨st1, st2, find_step_skip_exact T st1 r hT hexv,
          find_step_skip_exact T st2 r hT (hex ▸ hexv), hex, hfe, hinv1,
          hinv2⟩
      | false =>
        cases hm : ob_compare_subst T r.target with
        | none =>
          exact Or.inr ⟨st1, st2,
            find_step_skip_nomatch T st1 r hT hexv hf hm,
            find_step_skip_nomatch T st2 r hT (hex ▸ hexv) hf hm, hex, hfe,
            hinv1, hinv2⟩
        | some sub =>
          have hs : sub ≠ [] := compare_subst_ne_nil hm
          refine Or.inr ⟨_, _,
            find_step_pat_first T st1 r sub hT hexv hf hm hs hfr1,
            find_step_pat_first T st2 r sub hT (hex ▸ hexv) hf hm hs hfr2,
            hex, ?_, ?_, ?_⟩
          · unfold frule_entry
            dsimp only
            simp only [Option.map_some']
            rw [getD_concat_self, getD_concat_self]
          · intro p hp
            dsimp only at hp ⊢
            simp only [Option.some_inj] at hp
            subst hp
            exact ⟨by simp, by rw [getD_concat_self]; exact hf⟩
          · intro p hp
            dsimp only at hp ⊢
            simp only [Option.some_inj] at hp
            subst hp
            exact ⟨by simp, by rw [getD_concat_self]; exact hf⟩
  | some p1 =>
    cases hfr2 : st2.frule with
    | none =>
      rw [frule_entry_some hfr1, frule_entry_none hfr2] at hfe
      cases hfe
    | some p2 =>
      have hE : st1.rlist.getD p1 default = st2.rlist.getD p2 default := by
        rw [frule_entry_some hfr1, frule_entry_some hfr2] at hfe
        exact Option.some_inj.mp hfe
      obtain ⟨hp1, hslot1⟩ := hinv1 p1 hfr1
      obtain ⟨hp2, hslot2⟩ := hinv2 p2 hfr2
      by_cases hT : T = r.target
      · cases hexv : st1.exact with
        | true =>
          exact Or.inl ⟨⟨1, redef_msg T⟩,
            find_step_exact_redef T st1 r p1 hT hf hfr1 hexv,
            find_step_exact_redef T st2 r p2 hT hf hfr2 (hex ▸ hexv)⟩
        | false =>
          refine Or.inr ⟨_, _,
            find_step_exact_replace T st1 r p1 hT hf hfr1 hexv,
            find_step_exact_replace T st2 r p2 hT hf hfr2 (hex ▸ hexv),
            rfl, ?_, ?_, ?_⟩
          · rw [frule_entry_some (p := p1) rfl,
              frule_entry_some (p := p2) rfl]
            dsimp only
            rw [set_append_dropLast _ _ _ _ hp1,
              set_append_dropLast _ _ _ _ hp2,
              getD_set_self _ _ _ hp1, getD_set_self _ _ _ hp2]
          · intro q hq
            dsimp only at hq ⊢
            simp only [Option.some_inj] at hq
            subst hq
            rw [set_append_dropLast _ _ _ _ hp1]
            exact ⟨by simpa using hp1,
              by rw [getD_set_self _ _ _ hp1]; exact hf⟩
          · intro q hq
            dsimp only at hq ⊢
            simp only [Option.some_inj] at hq
            subst hq
            rw [set_append_dropLast _ _ _ _ hp2]
            exact ⟨by simpa using hp2,
              by rw [getD_set_self _ _ _ hp2]; exact hf⟩
      · cases hexv : st1.exact with
        | true =>
          exact Or.inr ⟨st1, st2, find_step_skip_exact T st1 r hT hexv,
            find_step_skip_exact T st2 r hT (hex ▸ hexv), hex, hfe, hinv1,
            hinv2⟩
        | false =>
          cases hm : ob_compare_subst T r.target with
          | none =>
            exact Or.inr ⟨st1, st2,
              find_step_skip_nomatch T st1 r hT hexv hf hm,
              find_step_skip_nomatch T st2 r hT (hex ▸ hexv) hf hm, hex,
              hfe, hinv1, hinv2⟩
          | some sub =>
            have hs : sub ≠ [] := compare_subst_ne_nil hm
            rcases Nat.lt_trichotomy sub.length
              (st1.rlist.getD p1 default).sub.length with hlen | hlen | hlen
            · refine Or.inr ⟨_, _,
                find_step_pat_shorter T st1 r sub p1 hT hexv hf hm hs hfr1
                  hlen,
                find_step_pat_shorter T st2 r sub p2 hT (hex ▸ hexv) hf hm
                  hs hfr2 (hE ▸ hlen), hex, ?_, ?_, ?_⟩
              · rw [frule_entry_some (p := p1) rfl,
                  frule_entry_some (p := p2) rfl]
                dsimp only
                rw [set_append_dropLast _ _ _ _ hp1,
                  set_append_dropLast _ _ _ _ hp2,
                  getD_set_self _ _ _ hp1, getD_set_self _ _ _ hp2]
              · intro q hq
                dsimp only at hq ⊢
                simp only [Option.some_inj] at hq
                subst hq
                rw [set_append_dropLast _ _ _ _ hp1]
                exact ⟨by simpa using hp1,
                  by rw [getD_set_self _ _ _ hp1]; exact hf⟩
              · intro q hq
                dsimp only at hq ⊢
                simp only [Option.some_inj] at hq
                subst hq
                rw [set_append_dropLast _ _ _ _ hp2]
                exact ⟨by simpa using hp2,
                  by rw [getD_set_self _ _ _ hp2]; exact hf⟩
            · exact Or.inl ⟨⟨1, redef_msg T⟩,
                find_step_pat_redef T st1 r sub p1 hT hexv hf hm hs hfr1
                  hlen,
                find_step_pat_redef T st2 r sub p2 hT (hex ▸ hexv) hf hm hs
                  hfr2 (hE ▸ hlen)⟩
            · refine Or.inr ⟨_, _,
                find_step_pat_longer T st1 r sub p1 hT hexv hf hm hs hfr1
                  hlen,
                find_step_pat_longer T st2 r sub p2 hT (hex ▸ hexv) hf hm hs
                  hfr2 (hE ▸ hlen), hex, ?_, ?_, ?_⟩
              · rw [frule_entry_some (p := p1) (by dsimp only; exact hfr1),
                  frule_entry_some (p := p2) (by dsimp only; exact hfr2)]
                dsimp only
                rw [List.getD_append _ _ _ _ hp1,
                  List.getD_append _ _ _ _ hp2]
                exact congrArg some hE
              · intro q hq
                dsimp only at hq ⊢
                rw [hfr1] at hq
                simp only [Option.some_inj] at hq
                subst hq
                exact ⟨by simp only [List.length_append]; omega,
                  by rw [List.getD_append _ _ _ _ hp1]; exact hslot1⟩
              · intro q hq
                dsimp only at hq ⊢
                rw [hfr2] at hq
                simp only [Option.some_inj] at hq
                subst hq
                exact ⟨by simp only [List.length_append]; omega,
                  by rw [List.getD_append _ _ _ _ hp2]; exact hslot2⟩

/-- Scan-level simulation: recipe-less rules never influence whether the
scan succeeds — running find_rules over the rule list or over only its
recipe-bearing rules errs in exactly the same situations. -/
theorem find_rules_go_sim (T : List Char) (rules : List Rule) :
    ∀ st1 st2 : FindSt, st1.exact = st2.exact →
    frule_entry st1 = frule_entry st2 → FindInv st1 → FindInv st2 →
    exceptOk (find_rules_go T st1 rules) =
      exceptOk (find_rules_go T st2 (rules.filter fun r => r.func.isSome)) := by
  induction rules with
  | nil =>
    intro st1 st2 _ _ _ _
    rfl
  | cons r rs ih =>
    intro st1 st2 hex hfe h1 h2
    cases hf : r.func.isSome with
    | false =>
      rw [List.filter_cons_of_neg (by simp [hf])]
      obtain ⟨st1n, hstep, hexn, hfen, hinvn⟩ :=
        find_step_funcless T r st1 h1 hf
      rw [find_rules_go, hstep]
      exact ih st1n st2 (hexn.trans hex) (hfen.trans hfe) hinvn h2
    | true =>
      rw [List.filter_cons_of_pos (by simp [hf])]
      rcases find_step_sim T r st1 st2 hf hex hfe h1 h2 with
        ⟨e, he1, he2⟩ | ⟨su1, su2, ho1, ho2, hx, hf2, hi1, hi2⟩
      · rw [find_rules_go, he1, find_rules_go, he2]
      · rw [find_rules_go, ho1, find_rules_go, ho2]
        exact ih su1 su2 hx hf2 hi1 hi2

/-- Claim C4 amended: in find_rules, (i) every recipe-less SubRule in the
result comes from an exact match — rules without a recipe that match only
via % are never added to the list; (ii) every recipe-less rule matching
the target exactly contributes its entry to the result, even once an exact
recipe-bearing rule has been chosen; (iii) recipe-less rules never
participate in the redefinition check: deleting all of them never changes
whether find_rules succeeds or errs. -/
theorem c4_recipeless_rules :
    (∀ (T : List Char) (rules : List Rule) (rl : List SubRule),
      find_rules T rules = .ok rl →
      (∀ sr ∈ rl, sr.rule.func.isSome = true ∨ T = sr.rule.target) ∧
      (∀ r ∈ rules, r.func.isSome = false → r.target = T →
        (⟨[], r⟩ : SubRule) ∈ rl)) ∧
    (∀ (T : List Char) (rules : List Rule),
      exceptOk (find_rules T rules) =
        exceptOk (find_rules T (rules.filter fun r => r.func.isSome))) := by
  have hinv0 : FindInv ⟨[], none, false⟩ := by
    intro p hp
    cases hp
  constructor
  · intro T rules rl hfind
    obtain ⟨h1, _, h3⟩ := find_rules_go_mem T rules ⟨[], none, false⟩ hinv0
      rl hfind
    refine ⟨?_, h3⟩
    intro sr hsr
    rcases h1 sr hsr with h | h | h
    · cases h
    · exact Or.inl h
    · exact Or.inr h
  · intro T rules
    exact find_rules_go_sim T rules ⟨[], none, false⟩ ⟨[], none, false⟩ rfl
      rfl hinv0 hinv0

def c4_rule : Rule := ⟨("%.o").toList, [("x").toList], none, false⟩

/-- Counterexample to C4 as stated: the recipe-less pattern rule `%.o`
matches `a.o` via % (with capture `a`), yet find_rules returns the empty
SubRule list — the rule is NOT kept and contributes no dependencies. -/
theorem c4_counterexample :
    find_rules (("a.o").toList) [c4_rule] = .ok [] ∧
    ob_compare_subst (("a.o").toList) c4_rule.target =
      some (("a").toList) ∧
    c4_rule.func.isSome = false :=
  ⟨rfl, by decide, rfl⟩

def c4w_rule : Rule := ⟨("t").toList, [], none, false⟩

/-- Witness for the amended C4 at a single recipe-less exact rule. -/
theorem c4_witness :
    ((∀ sr ∈ [(⟨[], c4w_rule⟩ : SubRule)],
        sr.rule.func.isSome = true ∨ ("t").toList = sr.rule.target) ∧
      (∀ r ∈ [c4w_rule], r.func.isSome = false → r.target = ("t").toList →
        (⟨[], r⟩ : SubRule) ∈ [(⟨[], c4w_rule⟩ : SubRule)])) ∧
    exceptOk (find_rules (("t").toList) [c4w_rule]) =
      exceptOk (find_rules (("t").toList)
        ([c4w_rule].filter fun r => r.func.isSome)) :=
  ⟨c4_recipeless_rules.1 (("t").toList) [c4w_rule] [⟨[], c4w_rule⟩] rfl,
   c4_recipeless_rules.2 (("t").toList) [c4w_rule]⟩

/-! Claims C1 and C8: the barrier and the shell failure latch. -/

/-- RuleCounter counter accounting: the counter is the number of incrs
minus the number of decrs. -/
theorem foldl_bstep_counter (codes : Nat → Int) (evs : List BEv) :
    ∀ s : BarSt, (evs.foldl (bstep codes) s).counter =
      s.counter + (countIncr evs : Int) - (countDecr evs : Int) := by
  induction evs with
  | nil =>
    intro s
    simp [countIncr, countDecr]
  | cons e rest ih =>
    intro s
    rw [List.foldl_cons, ih]
    cases e with
    | incr =>
      simp only [countIncr, countDecr, List.countP_cons, bstep]
      simp
      omega
    | obs i =>
      simp only [countIncr, countDecr, List.countP_cons, bstep]
      simp
    | rd i =>
      simp only [countIncr, countDecr, List.countP_cons, bstep]
      simp
    | wr i =>
      simp only [countIncr, countDecr, List.countP_cons, bstep]
      split <;> simp
    | decr i =>
      simp only [countIncr, countDecr, List.countP_cons, bstep]
      simp
      omega

/-- Counterexample to C1 as stated: a valid wait_result execution in which
f enqueued one task (one incr) and returned 1 — the `if (ret) return ret;`
before ctr.wait() makes wait_result return 1 at once, with the counter
still 1: the enqueued task has not decremented and is still running. -/
theorem c1_counterexample :
    WRun.valid (fun _ => 0) ⟨1, [BEv.incr], []⟩ ∧
    WRun.retval (fun _ => 0) ⟨1, [BEv.incr], []⟩ = 1 ∧
    WRun.outstanding (fun _ => 0) ⟨1, [BEv.incr], []⟩ = 1 ∧
    countIncr [BEv.incr] ≠ countDecr [BEv.incr] := by
  refine ⟨?_, ?_, by decide, by decide⟩
  · simp [WRun.valid]
  · simp [WRun.retval]

/-- Claim C1 amended: when wait_result returns after f returned 0 it has
waited on its barrier, so at the return the counter is 0 and every task
incr-ed through the barrier has matched its decr — no such task is still
running; when f returns non-zero, wait_result returns immediately without
waiting and enqueued tasks may still be outstanding (see the
counterexample). -/
theorem c1_wait_quiescence (codes : Nat → Int) (r : WRun)
    (hv : WRun.valid codes r) (h0 : r.ret = 0) :
    countIncr (r.duringF ++ r.afterF) = countDecr (r.duringF ++ r.afterF) ∧
    WRun.outstanding codes r = 0 := by
  unfold WRun.valid at hv
  rw [h0] at hv
  simp only [ne_eq, not_true_eq_false, if_false, ite_false] at hv
  have hc := hv.1
  refine ⟨?_, hc⟩
  unfold brun at hc
  rw [foldl_bstep_counter codes (r.duringF ++ r.afterF) ⟨0, 0, []⟩] at hc
  simp only at hc
  omega

/-- Witness for the amended C1: one task enqueued and completed, f
returned 0. -/
theorem c1_witness :
    countIncr ([BEv.incr, BEv.decr 0] ++ []) =
      countDecr ([BEv.incr, BEv.decr 0] ++ []) ∧
    WRun.outstanding (fun _ => 0) ⟨0, [BEv.incr, BEv.decr 0], []⟩ = 0 :=
  c1_wait_quiescence (fun _ => 0) ⟨0, [BEv.incr, BEv.decr 0], []⟩
    (by simp [WRun.valid]; decide) rfl

/-- Any value the barrier's result ever holds is its initial one or the
exit code of a task whose code is non-zero. -/
theorem foldl_bstep_result_src (codes : Nat → Int) (evs : List BEv) :
    ∀ s : BarSt, (evs.foldl (bstep codes) s).result = s.result ∨
      ∃ j, codes j ≠ 0 ∧ (evs.foldl (bstep codes) s).result = codes j := by
  induction evs with
  | nil =>
    intro s
    exact Or.inl rfl
  | cons e rest ih =>
    intro s
    rw [List.foldl_cons]
    rcases ih (bstep codes s e) with h | h
    · rw [h]
      cases e with
      | incr => exact Or.inl rfl
      | obs i => exact Or.inl rfl
      | rd i => exact Or.inl rfl
      | decr i => exact Or.inl rfl
      | wr i =>
        by_cases hc : codes i ≠ 0 ∧ s.seen.lookup i = some 0
        · exact Or.inr ⟨i, hc.1, by simp [bstep, hc]⟩
        · exact Or.inl (by simp [bstep, hc])
    · exact Or.inr h

/-- Once the barrier's result is non-zero it stays non-zero: tasks only
ever store their own non-zero exit code. -/
theorem foldl_bstep_result_ne (codes : Nat → Int) (evs : List BEv) :
    ∀ s : BarSt, s.result ≠ 0 →
      (evs.foldl (bstep codes) s).result ≠ 0 := by
  induction evs with
  | nil =>
    intro s h
    exact h
  | cons e rest ih =>
    intro s h
    rw [List.foldl_cons]
    refine ih _ ?_
    cases e with
    | incr => exact h
    | obs i => exact h
    | rd i => exact h
    | decr i => exact h
    | wr i =>
      by_cases hc : codes i ≠ 0 ∧ s.seen.lookup i = some 0
      · simp only [bstep, if_pos hc]
        exact hc.1
      · simp only [bstep, if_neg hc]
        exact h

/-- A task's recorded read is untouched by a schedule fragment containing
no further read of that task. -/
theorem foldl_bstep_lookup (codes : Nat → Int) (evs : List BEv) (i : Nat)
    (h : BEv.rd i ∉ evs) :
    ∀ s : BarSt, ((evs.foldl (bstep codes) s).seen.lookup i) =
      s.seen.lookup i := by
  induction evs with
  | nil =>
    intro s
    rfl
  | cons e rest ih =>
    intro s
    have hrest : BEv.rd i ∉ rest := fun hr => h (List.mem_cons_of_mem _ hr)
    rw [List.foldl_cons, ih hrest]
    cases e with
    | incr => rfl
    | obs j => rfl
    | decr j => rfl
    | wr j =>
      by_cases hc : codes j ≠ 0 ∧ s.seen.lookup j = some 0
      · simp [bstep, hc]
      · simp [bstep, hc]
    | rd j =>
      have hij : i ≠ j := by
        intro he
        exact h (by rw [he]; exact List.mem_cons_self _ _)
      have : (i == j) = false := beq_eq_false_iff_ne.mpr hij
      simp [bstep, List.lookup_cons, this]

/-- Claim C8 amended: if some task with a non-zero exit code performs its
result read and then its conditional store (with no second read of its own
in between), the barrier's final result is non-zero and equals the exit
code of one of the failing tasks.  It need not be the chronologically
first failure: the latch is an atomic load followed by a separate atomic
store, not a store-if-zero, so a later failure whose store lands after
another's can win (see the counterexample). -/
theorem c8_failure_latch (codes : Nat → Int) (i : Nat) (a b c : List BEv)
    (hi : codes i ≠ 0) (hb : BEv.rd i ∉ b) :
    (brun codes (a ++ BEv.rd i :: b ++ BEv.wr i :: c)).result ≠ 0 ∧
    ∃ j, codes j ≠ 0 ∧
      (brun codes (a ++ BEv.rd i :: b ++ BEv.wr i :: c)).result = codes j := by
  have hne : (brun codes (a ++ BEv.rd i :: b ++ BEv.wr i :: c)).result ≠ 0 := by
    unfold brun
    rw [List.foldl_append, List.foldl_cons, List.foldl_append,
      List.foldl_cons]
    set s0 := List.foldl (bstep codes) ⟨0, 0, []⟩ a with hs0
    set s1 := List.foldl (bstep codes) (bstep codes s0 (BEv.rd i)) b
      with hs1
    refine foldl_bstep_result_ne codes c _ ?_
    by_cases h0 : s0.result = 0
    · have hseen : s1.seen.lookup i = some 0 := by
        rw [hs1, foldl_bstep_lookup codes b i hb]
        simp [bstep, h0]
      simp only [bstep, if_pos (And.intro hi hseen)]
      exact hi
    · have h1 : s1.result ≠ 0 := by
        refine foldl_bstep_result_ne codes b _ ?_
        simpa [bstep] using h0
      by_cases hc : codes i ≠ 0 ∧ s1.seen.lookup i = some 0
      · simp only [bstep, if_pos hc]
        exact hi
      · simp only [bstep, if_neg hc]
        exact h1
  refine ⟨hne, ?_⟩
  rcases foldl_bstep_result_src codes
    (a ++ BEv.rd i :: b ++ BEv.wr i :: c) ⟨0, 0, []⟩ with h | h
  · exact absurd h hne
  · exact h

def c8w_codes : Nat → Int := fun _ => 7

/-- Witness for the amended C8: a single failing task reads then stores;
the result is its code. -/
theorem c8_witness :
    (brun c8w_codes ([] ++ BEv.rd 0 :: [] ++ BEv.wr 0 :: [])).result ≠ 0 ∧
    ∃ j, c8w_codes j ≠ 0 ∧
      (brun c8w_codes ([] ++ BEv.rd 0 :: [] ++ BEv.wr 0 :: [])).result =
        c8w_codes j :=
  c8_failure_latch c8w_codes 0 [] [] [] (by decide) (by simp)

def c8_codes : Nat → Int := fun i => if i = 0 then 1 else 2

def c8_sched : List BEv :=
  [BEv.incr, BEv.incr, BEv.obs 0, BEv.obs 1, BEv.rd 0, BEv.rd 1,
   BEv.wr 0, BEv.wr 1, BEv.decr 0, BEv.decr 1]

/-- Counterexample to C8 as stated: tasks 0 and 1 fail with codes 1 and 2;
task 0 is the chronologically first to observe a non-zero status (its obs
comes first), both then read the result as 0, task 0 stores 1, task 1 —
whose read also saw 0 — stores 2 over it: the barrier's reported result is
2, not the first observer's code 1.  The read-then-store pair is not the
claimed atomic store-if-zero. -/
theorem c8_counterexample :
    first_fail_obs c8_codes c8_sched = some 0 ∧ c8_codes 0 = 1 ∧
    (brun c8_codes c8_sched).result = 2 ∧ ((2 : Int) ≠ 1) :=
  ⟨by decide, by decide, by decide, by decide⟩

end OctaBuild
